import Mathlib

/-!
Shallow embedding of `src/generate_regions.py` (repository Tokayo/regionscript).

The program converts a flat-color raster into per-color lists of axis-aligned
rectangles: `flood_fill` / `find_color_regions` partition the pixel grid into
4-connected same-color components, `split_into_rects` greedily decomposes one
component's point set into rectangles, `create_rects` aggregates per color and
`generate_xml` names the per-color groups.  Python lists/sets of coordinate
pairs are embedded as `List (Int × Int)` (sets as duplicate-free lists with
membership tests), machine integers as `Int`/`Nat`, the fallible image loader
as an `Option`-valued function.
-/

namespace RegionScript

/-- A pixel coordinate `(x, y)`, as the Python `(x, y)` tuples. -/
abbrev Coord := Int × Int

/-- A rectangle `(x0, y0, width, height)`, as the Python 4-tuples appended by
`split_into_rects`. -/
abbrev Rect := Int × Int × Int × Int

/-- Origin x of a rectangle tuple. -/
def rectX (r : Rect) : Int := r.1

/-- Origin y of a rectangle tuple. -/
def rectY (r : Rect) : Int := r.2.1

/-- Width of a rectangle tuple. -/
def rectW (r : Rect) : Int := r.2.2.1

/-- Height of a rectangle tuple. -/
def rectH (r : Rect) : Int := r.2.2.2

/-- The set of coordinates covered by a rectangle:
`(x0..x0+w-1) × (y0..y0+h-1)`. -/
def inRect (r : Rect) (p : Coord) : Prop :=
  rectX r ≤ p.1 ∧ p.1 < rectX r + rectW r ∧ rectY r ≤ p.2 ∧ p.2 < rectY r + rectH r

instance (r : Rect) (p : Coord) : Decidable (inRect r p) := by
  unfold inRect; exact inferInstance

/-- Some rectangle in the list covers `p`. -/
def inRects (rs : List Rect) (p : Coord) : Prop := ∃ r ∈ rs, inRect r p

instance (rs : List Rect) (p : Coord) : Decidable (inRects rs p) := by
  unfold inRects; exact inferInstance

/-- Two rectangles cover disjoint coordinate sets. -/
def rectDisjoint (r s : Rect) : Prop := ∀ p : Coord, inRect r p → ¬ inRect s p

/-! ## `split_into_rects` (lines 76–106)

The Python function copies the incoming point list into a set, repeatedly pops
a point `(x0, y0)`, extends to the right while `(x0+width, y0)` is present
(removing as it goes), then runs `for y in range(y0+1, y0+height+1)` — the
range object is built once, while `height == 1`, so the loop ranges over the
single row `y0+1` even though `height` is incremented inside it — and finally
emits `(x0, y0, width, height)`.

The Python set is embedded as a duplicate-free list; `set(points)` becomes
`List.dedup`, popping becomes taking the head, `points.remove` becomes
`List.erase`. -/

/-- `while (x0 + width, y0) in points: points.remove(...); width += 1`
(lines 88–90), with an explicit fuel counter for structural recursion.  Each
loop iteration removes one element, so `pts.length` fuel always suffices and
the out-of-fuel branch is unreachable from `growWidth`. -/
def growWidthAux (x0 y0 : Int) : Nat → Int → List Coord → Int × List Coord
  | 0, w, pts => (w, pts)
  | fuel + 1, w, pts =>
      if (x0 + w, y0) ∈ pts then
        growWidthAux x0 y0 fuel (w + 1) (pts.erase (x0 + w, y0))
      else (w, pts)

/-- The width-growing `while` loop of lines 88–90. -/
def growWidth (x0 y0 : Int) (w : Int) (pts : List Coord) : Int × List Coord :=
  growWidthAux x0 y0 pts.length w pts

/-- `range(a, b)` over integers, as the list `[a, a+1, ..., b-1]`. -/
def rangeInt (a b : Int) : List Int :=
  (List.range (b - a).toNat).map (fun (i : Nat) => a + (i : Int))

/-- The column indices `range(x0, x0 + width)` of a candidate row. -/
def spanCols (x0 width : Int) : List Int := rangeInt x0 (x0 + width)

/-- The inner `for x ... else` check of lines 94–96: the whole span
`[x0, x0+width)` is present at row `y`. -/
def rowFull (x0 width y : Int) (pts : List Coord) : Bool :=
  (spanCols x0 width).all (fun x => decide ((x, y) ∈ pts))

/-- Lines 98–99: remove the whole span `[x0, x0+width)` at row `y`. -/
def removeRow (x0 width y : Int) (pts : List Coord) : List Coord :=
  (spanCols x0 width).foldl (fun acc x => acc.erase (x, y)) pts

/-- The `for y in rows` loop of lines 93–102: for each candidate row, if the
full span is present remove it and increment `height`, else stop.  The row
list `rows` is the range object, fixed at loop entry. -/
def heightLoop (x0 width : Int) (rows : List Int) (height : Int)
    (pts : List Coord) : Int × List Coord :=
  match rows with
  | [] => (height, pts)
  | y :: rest =>
      if rowFull x0 width y pts then
        heightLoop x0 width rest (height + 1) (removeRow x0 width y pts)
      else (height, pts)

/-- One iteration of the outer `while points` loop (lines 82–104), after the
origin `(x0, y0)` has been popped: grow width, then run the downward loop over
`range(y0 + 1, y0 + height + 1)` — evaluated once with `height = 1`.  Returns
the emitted rectangle and the remaining points. -/
def splitStep (x0 y0 : Int) (pts : List Coord) : Rect × List Coord :=
  let wp := growWidth x0 y0 1 pts
  let height : Int := 1
  let hp := heightLoop x0 wp.1 (rangeInt (y0 + 1) (y0 + height + 1)) height wp.2
  ((x0, y0, wp.1, hp.1), hp.2)

/-- The outer `while points` loop (lines 81–104) on a duplicate-free list of
remaining points, popping the head as the next origin.  Fuel counts loop
iterations; each iteration consumes at least the popped origin, so
`pts.length` fuel always suffices and the out-of-fuel branch is
unreachable from `splitLoop`. -/
def splitLoopAux : Nat → List Coord → List Rect
  | 0, _ => []
  | _, [] => []
  | fuel + 1, (x0, y0) :: pts =>
      (splitStep x0 y0 pts).1 :: splitLoopAux fuel (splitStep x0 y0 pts).2

/-- The outer `while points` loop of `split_into_rects`. -/
def splitLoop (pts : List Coord) : List Rect :=
  splitLoopAux pts.length pts

/-- `split_into_rects(points)` (lines 76–106): copy the points into a set
(`dedup`), then run the decomposition loop. -/
def split_into_rects (points : List Coord) : List Rect :=
  splitLoop points.dedup

/-! ## The pixel grid and `flood_fill` (lines 17–38)

`PIL` images are embedded as a width, a height and a pixel-color function;
colors are opaque comparable values, embedded as `Nat`.  The Python `visited`
set is embedded as a duplicate-free list threaded through explicitly (the
Python function mutates it in place), and the BFS `deque` as a list popped at
the head and extended at the tail. -/

/-- A decoded raster: `img.size = (width, height)` and `pixels[x, y]`. -/
structure Grid where
  width : Nat
  height : Nat
  pix : Int → Int → Nat

/-- `0 ≤ x < width ∧ 0 ≤ y < height`. -/
def inBounds (g : Grid) (p : Coord) : Prop :=
  0 ≤ p.1 ∧ p.1 < (g.width : Int) ∧ 0 ≤ p.2 ∧ p.2 < (g.height : Int)

instance (g : Grid) (p : Coord) : Decidable (inBounds g p) := by
  unfold inBounds; exact inferInstance

/-- The bounds test of line 28: `x < 0 or y < 0 or x >= width or y >= height`. -/
def outOfBounds (g : Grid) (x y : Int) : Bool :=
  decide (x < 0) || decide (y < 0) ||
    decide ((g.width : Int) ≤ x) || decide ((g.height : Int) ≤ y)

/-- The grid coordinates in the scan order of `find_color_regions`
(lines 47–48): `y` outer, `x` inner, both ascending. -/
def gridList (g : Grid) : List Coord :=
  ((List.range g.height).map (fun (y : Nat) =>
    (List.range g.width).map (fun (x : Nat) => ((x : Int), (y : Int))))).flatten

/-- The `while queue` loop of `flood_fill` (lines 24–36), with fuel for
structural recursion.  Each iteration pops one queue entry; an entry is
skipped if already visited, out of bounds, or off-color, otherwise it is
marked visited, recorded, and its four axis neighbors are enqueued.  Every
iteration decreases `5·(unvisited in-bounds cells) + queue length`, so that
much fuel suffices and the out-of-fuel branch is unreachable from
`flood_fill`. -/
def floodLoopAux (g : Grid) (color : Nat) :
    Nat → List Coord → List Coord → List Coord → List Coord × List Coord
  | 0, _, visited, region => (region, visited)
  | fuel + 1, queue, visited, region =>
      match queue with
      | [] => (region, visited)
      | (x, y) :: rest =>
          if (x, y) ∈ visited then floodLoopAux g color fuel rest visited region
          else if outOfBounds g x y then floodLoopAux g color fuel rest visited region
          else if g.pix x y ≠ color then floodLoopAux g color fuel rest visited region
          else
            floodLoopAux g color fuel
              (rest ++ [(x + 1, y), (x - 1, y), (x, y + 1), (x, y - 1)])
              ((x, y) :: visited) (region ++ [(x, y)])

/-- `flood_fill(img, start_x, start_y, color, visited)` (lines 17–38).
Returns the recorded `region_points` together with the updated `visited`
set (which the Python code mutates in place). -/
def flood_fill (g : Grid) (start_x start_y : Int) (color : Nat)
    (visited : List Coord) : List Coord × List Coord :=
  floodLoopAux g color (5 * (gridList g).length + 1) [(start_x, start_y)] visited []

/-! ## `find_color_regions` (lines 40–56) -/

/-- Lines 52–54: `if color not in regions: regions[color] = []` followed by
`regions[color].append(region_points)`, on the insertion-ordered
association-list embedding of the Python dict. -/
def addRegion : List (Nat × List (List Coord)) → Nat → List Coord →
    List (Nat × List (List Coord))
  | [], c, pts => [(c, [pts])]
  | (c', comps) :: rest, c, pts =>
      if c' = c then (c', comps ++ [pts]) :: rest
      else (c', comps) :: addRegion rest c pts

/-- The body of the double scan loop of `find_color_regions` (lines 49–54):
look up the pixel color, skip visited coordinates, otherwise flood-fill from
here and record the resulting component under its color. -/
def scanStep (g : Grid) (st : List (Nat × List (List Coord)) × List Coord)
    (p : Coord) : List (Nat × List (List Coord)) × List Coord :=
  if p ∈ st.2 then st
  else
    (addRegion st.1 (g.pix p.1 p.2) (flood_fill g p.1 p.2 (g.pix p.1 p.2) st.2).1,
      (flood_fill g p.1 p.2 (g.pix p.1 p.2) st.2).2)

/-- `find_color_regions(img)` (lines 40–56): scan all pixels row-major and
return the color-keyed components dict. -/
def find_color_regions (g : Grid) : List (Nat × List (List Coord)) :=
  ((gridList g).foldl (scanStep g) ([], [])).1

/-! ## `create_rects` (lines 66–74), `generate_xml` grouping (lines 114–129),
`load_bmp` (lines 6–15) and `main` (lines 131–139) -/

/-- `create_rects(regions)`: for each color, concatenate the rectangle
decompositions of all of that color's components. -/
def create_rects (regions : List (Nat × List (List Coord))) : List (Nat × List Rect) :=
  regions.map (fun cr => (cr.1, (cr.2.map split_into_rects).flatten))

/-- The grouping and naming performed by `generate_xml` (lines 119–124): one
`region` element per dict entry, named `Region_<idx>` by 1-based enumeration
order, holding that entry's rectangles.  The XML text formatting itself is
out of the modelled core. -/
def generate_xml (rects : List (Nat × List Rect)) : List (String × List Rect) :=
  rects.enum.map (fun icr => ("Region_" ++ toString (icr.1 + 1), icr.2.2))

/-- `load_bmp(file_path)` (lines 6–15).  `Image.open` is embedded as its
outcome: `none` when opening raised an exception, `some img` otherwise.  The
dimension check raises `ValueError` for any size other than `6144×4096`; the
surrounding `try/except` catches every exception (including that one) and
returns `None`. -/
def load_bmp (openResult : Option Grid) : Option Grid :=
  match openResult with
  | none => none
  | some img => if (img.width, img.height) = (6144, 4096) then some img else none

/-- `main(bmp_file, output_file)` (lines 131–139): load, and on failure return
without writing; otherwise run the pipeline and write the document.  The
written output file is embedded as the `some` payload; `none` means no output
file was written. -/
def main (openResult : Option Grid) : Option (List (String × List Rect)) :=
  match load_bmp openResult with
  | none => none
  | some img => some (generate_xml (create_rects (find_color_regions img)))

/-! ## Derived notions used to state the claims -/

/-- The components of the regions dict, flattened, each tagged with the color
it is filed under. -/
def allComps (regions : List (Nat × List (List Coord))) : List (Nat × List Coord) :=
  (regions.map (fun cr => cr.2.map (fun pts => (cr.1, pts)))).flatten

/-- All rectangles of a catalog, each tagged with its group's color. -/
def allRects (rects : List (Nat × List Rect)) : List (Nat × Rect) :=
  (rects.map (fun cr => cr.2.map (fun r => (cr.1, r)))).flatten

/-- `p` and `q` are covered by rectangles of one and the same group. -/
def sameGroup (rects : List (Nat × List Rect)) (p q : Coord) : Prop :=
  ∃ cr ∈ rects, inRects cr.2 p ∧ inRects cr.2 q

instance (rects : List (Nat × List Rect)) (p q : Coord) : Decidable (sameGroup rects p q) := by
  unfold sameGroup; exact inferInstance

/-- Two grid cells share an edge (4-connectivity). -/
def adjacent (p q : Coord) : Prop :=
  (q.1 = p.1 + 1 ∧ q.2 = p.2) ∨ (q.1 = p.1 - 1 ∧ q.2 = p.2) ∨
    (q.1 = p.1 ∧ q.2 = p.2 + 1) ∨ (q.1 = p.1 ∧ q.2 = p.2 - 1)

instance (p q : Coord) : Decidable (adjacent p q) := by
  unfold adjacent; exact inferInstance

/-- An in-bounds cell of color `c` — a cell `flood_fill` run for color `c`
collects rather than skips. -/
def goodCell (g : Grid) (c : Nat) (p : Coord) : Prop :=
  inBounds g p ∧ g.pix p.1 p.2 = c

instance (g : Grid) (c : Nat) (p : Coord) : Decidable (goodCell g c p) := by
  unfold goodCell; exact inferInstance

/-- One hop between 4-adjacent in-bounds cells, both of color `c`. -/
def floodStep (g : Grid) (c : Nat) (p q : Coord) : Prop :=
  goodCell g c p ∧ goodCell g c q ∧ adjacent p q

/-- `q` is reachable from `p` through 4-adjacent in-bounds cells of color
`c` (the connectivity flood fill computes). -/
def Reach (g : Grid) (c : Nat) : Coord → Coord → Prop :=
  Relation.ReflTransGen (floodStep g c)

/-- How many in-bounds cells are not yet in the visited set. -/
def unvisitedCount (g : Grid) (visited : List Coord) : Nat :=
  ((gridList g).filter (fun p => decide (p ∉ visited))).length

/-- The queue/visited measure that strictly decreases at every `floodLoopAux`
iteration: `5·(in-bounds cells not yet visited) + queue length`. -/
def floodMeasure (g : Grid) (queue visited : List Coord) : Nat :=
  5 * unvisitedCount g visited + queue.length

/-- Postcondition of the flood-fill loop relative to its starting state:
visited monotonicity, capture of all good queue entries, soundness
(new cells are good and reached from the queue), closure of new cells under
good neighbors, the recorded region being exactly the newly visited cells,
and freedom from duplicates. -/
def FloodPost (g : Grid) (c : Nat) (queue visited region : List Coord)
    (out : List Coord × List Coord) : Prop :=
  (∀ p : Coord, p ∈ visited → p ∈ out.2) ∧
  (∀ p : Coord, p ∈ queue → goodCell g c p → p ∈ out.2) ∧
  (∀ p : Coord, p ∈ out.2 → p ∉ visited → goodCell g c p ∧ ∃ q ∈ queue, Reach g c q p) ∧
  (∀ p : Coord, p ∈ out.2 → p ∉ visited →
    ∀ q : Coord, adjacent p q → goodCell g c q → q ∈ out.2) ∧
  (∀ p : Coord, p ∈ out.1 ↔ p ∈ region ∨ (p ∈ out.2 ∧ p ∉ visited)) ∧
  out.2.Nodup ∧ out.1.Nodup

/-- A visited set closed under same-color adjacency — what the union of
finished components always satisfies. -/
def ClosedUnderColor (g : Grid) (visited : List Coord) : Prop :=
  ∀ p : Coord, p ∈ visited → ∀ q : Coord, adjacent p q → inBounds g q →
    g.pix q.1 q.2 = g.pix p.1 p.2 → q ∈ visited

/-- Invariant of the `find_color_regions` scan state `(regions, visited)`. -/
def RegionsInv (g : Grid) (st : List (Nat × List (List Coord)) × List Coord) : Prop :=
  (∀ p : Coord, p ∈ st.2 ↔ ∃ cc ∈ allComps st.1, p ∈ cc.2) ∧
  ClosedUnderColor g st.2 ∧
  st.2.Nodup ∧
  (∀ cc ∈ allComps st.1, ∃ s : Coord, goodCell g cc.1 s ∧
    (∀ p : Coord, p ∈ cc.2 ↔ Reach g cc.1 s p)) ∧
  (∀ cc ∈ allComps st.1, cc.2.Nodup) ∧
  (allComps st.1).Pairwise (fun a b => ∀ p : Coord, p ∈ a.2 → p ∉ b.2) ∧
  (st.1.map Prod.fst).Nodup

/-- The decomposition loop threading the caller's collection alongside the
working copy: line 78 (`points = set(points)`) rebinds the local name to a
fresh set, so every later `points.remove`/`pop` acts on the copy while the
caller's list object is left untouched.  Returns the rectangles together with
the caller's collection as the call leaves it. -/
def splitLoopFrame (caller : List Coord) : Nat → List Coord → List Rect × List Coord
  | 0, _ => ([], caller)
  | _ + 1, [] => ([], caller)
  | fuel + 1, (x0, y0) :: pts =>
      ((splitStep x0 y0 pts).1 :: (splitLoopFrame caller fuel (splitStep x0 y0 pts).2).1,
        (splitLoopFrame caller fuel (splitStep x0 y0 pts).2).2)

/-- `split_into_rects` with the caller's argument tracked explicitly. -/
def split_into_rects_frame (points : List Coord) : List Rect × List Coord :=
  splitLoopFrame points points.dedup.length points.dedup

/-! ## Concrete instances -/

/-- The 9-point component of a 3×3 grid whose pixels all share one color
(row-major order, as the claims' Scenario A). -/
def nineComponent : List Coord :=
  [(0, 0), (1, 0), (2, 0), (0, 1), (1, 1), (2, 1), (0, 2), (1, 2), (2, 2)]

/-- A 3×3 grid, all pixels one color (Scenario A). -/
def grid3 : Grid := ⟨3, 3, fun _ _ => 0⟩

/-- A 10×10 grid with color 1 exactly at (0,0) and (5,5), color 0 elsewhere
(Scenario C). -/
def grid10 : Grid :=
  ⟨10, 10, fun x y => if (x = 0 ∧ y = 0) ∨ (x = 5 ∧ y = 5) then 1 else 0⟩

set_option maxRecDepth 1000000

/-! ## Lemmas -/

theorem growWidthAux_length_le (x0 y0 : Int) :
    ∀ (fuel : Nat) (w : Int) (pts : List Coord),
      (growWidthAux x0 y0 fuel w pts).2.length ≤ pts.length := by
  intro fuel
  induction fuel with
  | zero => intro w pts; simp [growWidthAux]
  | succ fuel ih =>
      intro w pts
      rw [growWidthAux]
      by_cases h : (x0 + w, y0) ∈ pts
      · rw [if_pos h]
        calc (growWidthAux x0 y0 fuel (w + 1) (pts.erase (x0 + w, y0))).2.length
            ≤ (pts.erase (x0 + w, y0)).length := ih _ _
          _ ≤ pts.length := (pts.erase_sublist _).length_le
      · rw [if_neg h]

theorem growWidth_length_le (x0 y0 w : Int) (pts : List Coord) :
    (growWidth x0 y0 w pts).2.length ≤ pts.length :=
  growWidthAux_length_le x0 y0 pts.length w pts

theorem removeRow_length_le (x0 width y : Int) (pts : List Coord) :
    (removeRow x0 width y pts).length ≤ pts.length := by
  unfold removeRow
  induction spanCols x0 width generalizing pts with
  | nil => simp
  | cons a l ih =>
      calc (l.foldl (fun acc x => acc.erase (x, y)) (pts.erase (a, y))).length
          ≤ (pts.erase (a, y)).length := ih _
        _ ≤ pts.length := (pts.erase_sublist _).length_le

theorem heightLoop_length_le (x0 width : Int) (rows : List Int) (height : Int)
    (pts : List Coord) : (heightLoop x0 width rows height pts).2.length ≤ pts.length := by
  induction rows generalizing height pts with
  | nil => simp [heightLoop]
  | cons y rest ih =>
      rw [heightLoop]
      by_cases h : rowFull x0 width y pts
      · rw [if_pos h]
        calc (heightLoop x0 width rest (height + 1) (removeRow x0 width y pts)).2.length
            ≤ (removeRow x0 width y pts).length := ih _ _
          _ ≤ pts.length := removeRow_length_le _ _ _ _
      · rw [if_neg h]

theorem splitStep_length_le (x0 y0 : Int) (pts : List Coord) :
    (splitStep x0 y0 pts).2.length ≤ pts.length := by
  unfold splitStep
  calc (heightLoop x0 (growWidth x0 y0 1 pts).1 _ 1 (growWidth x0 y0 1 pts).2).2.length
      ≤ (growWidth x0 y0 1 pts).2.length := heightLoop_length_le _ _ _ _ _
    _ ≤ pts.length := growWidth_length_le _ _ _ _

/-! ### Lemmas for the decomposition -/

theorem mem_rangeInt {a b x : Int} : x ∈ rangeInt a b ↔ a ≤ x ∧ x < b := by
  unfold rangeInt
  simp only [List.mem_map, List.mem_range]
  constructor
  · rintro ⟨i, hi, rfl⟩
    omega
  · rintro ⟨h1, h2⟩
    exact ⟨(x - a).toNat, by omega, by omega⟩

theorem mem_spanCols {x0 w x : Int} : x ∈ spanCols x0 w ↔ x0 ≤ x ∧ x < x0 + w :=
  mem_rangeInt

theorem rowFull_iff {x0 w y : Int} {pts : List Coord} :
    rowFull x0 w y pts = true ↔ ∀ x : Int, x0 ≤ x → x < x0 + w → (x, y) ∈ pts := by
  unfold rowFull
  simp only [List.all_eq_true, decide_eq_true_eq, mem_spanCols]
  constructor
  · intro h x h1 h2
    exact h x ⟨h1, h2⟩
  · rintro h x ⟨h1, h2⟩
    exact h x h1 h2

theorem foldl_erase_row_spec (y : Int) (xs : List Int) :
    ∀ l : List Coord, l.Nodup →
      (xs.foldl (fun acc x => acc.erase (x, y)) l).Nodup ∧
      (∀ p : Coord, p ∈ xs.foldl (fun acc x => acc.erase (x, y)) l ↔
        p ∈ l ∧ ¬(p.2 = y ∧ p.1 ∈ xs)) := by
  induction xs with
  | nil =>
      intro l hl
      simpa using hl
  | cons x xs ih =>
      intro l hl
      have hnd : (l.erase (x, y)).Nodup := hl.erase _
      obtain ⟨h1, h2⟩ := ih (l.erase (x, y)) hnd
      refine ⟨h1, fun p => ?_⟩
      rw [List.foldl_cons, h2 p, List.Nodup.mem_erase_iff hl]
      obtain ⟨px, py⟩ := p
      simp only [List.mem_cons, Prod.mk.injEq, ne_eq]
      tauto

theorem removeRow_spec {x0 w y : Int} {pts : List Coord} (hnd : pts.Nodup) :
    (removeRow x0 w y pts).Nodup ∧
    (∀ p : Coord,
      p ∈ removeRow x0 w y pts ↔ p ∈ pts ∧ ¬(p.2 = y ∧ x0 ≤ p.1 ∧ p.1 < x0 + w)) := by
  obtain ⟨h1, h2⟩ := foldl_erase_row_spec y (spanCols x0 w) pts hnd
  refine ⟨h1, fun p => ?_⟩
  rw [removeRow, h2 p]
  simp only [mem_spanCols]

theorem growWidthAux_spec (x0 y0 : Int) :
    ∀ (fuel : Nat) (w : Int) (pts : List Coord), pts.Nodup → pts.length ≤ fuel →
      w ≤ (growWidthAux x0 y0 fuel w pts).1 ∧
      (growWidthAux x0 y0 fuel w pts).2.Nodup ∧
      (∀ p : Coord, p ∈ (growWidthAux x0 y0 fuel w pts).2 ↔
        p ∈ pts ∧ ¬(p.2 = y0 ∧ x0 + w ≤ p.1 ∧ p.1 < x0 + (growWidthAux x0 y0 fuel w pts).1)) ∧
      (∀ i : Int, w ≤ i → i < (growWidthAux x0 y0 fuel w pts).1 → (x0 + i, y0) ∈ pts) ∧
      (x0 + (growWidthAux x0 y0 fuel w pts).1, y0) ∉ pts := by
  intro fuel
  induction fuel with
  | zero =>
      intro w pts hnd hlen
      have hnil : pts = [] := List.length_eq_zero.1 (Nat.le_zero.1 hlen)
      subst hnil
      simp only [growWidthAux]
      refine ⟨le_refl w, List.nodup_nil, ?_, ?_, ?_⟩
      · intro p; simp
      · intro i h1 h2; omega
      · simp
  | succ fuel ih =>
      intro w pts hnd hlen
      rw [growWidthAux]
      by_cases h : (x0 + w, y0) ∈ pts
      · rw [if_pos h]
        have hlen' : (pts.erase (x0 + w, y0)).length ≤ fuel := by
          rw [List.length_erase_of_mem h]
          have := List.length_pos_of_mem h
          omega
        have hnd' : (pts.erase (x0 + w, y0)).Nodup := hnd.erase _
        obtain ⟨ih1, ih2, ih3, ih4, ih5⟩ := ih (w + 1) (pts.erase (x0 + w, y0)) hnd' hlen'
        refine ⟨by omega, ih2, ?_, ?_, ?_⟩
        · intro p
          rw [ih3 p, List.Nodup.mem_erase_iff hnd]
          obtain ⟨px, py⟩ := p
          simp only [Prod.mk.injEq, ne_eq]
          constructor
          · rintro ⟨⟨hne, hmem⟩, hrun⟩
            refine ⟨hmem, ?_⟩
            rintro ⟨hy, hge, hlt⟩
            by_cases hpx : px = x0 + w
            · exact hne ⟨hpx, hy⟩
            · exact hrun ⟨hy, by omega, hlt⟩
          · rintro ⟨hmem, hrun⟩
            refine ⟨⟨?_, hmem⟩, ?_⟩
            · rintro ⟨hpx, hy⟩
              exact hrun ⟨hy, by omega, by omega⟩
            · rintro ⟨hy, hge, hlt⟩
              exact hrun ⟨hy, by omega, hlt⟩
        · intro i hge hlt
          by_cases hiw : i = w
          · subst hiw; exact h
          · exact List.mem_of_mem_erase (ih4 i (by omega) hlt)
        · intro hmem
          have hne : ((x0 + (growWidthAux x0 y0 fuel (w + 1) (pts.erase (x0 + w, y0))).1, y0) :
              Coord) ≠ (x0 + w, y0) := by
            rw [ne_eq, Prod.mk.injEq]
            rintro ⟨h2, h3⟩
            omega
          exact ih5 ((List.mem_erase_of_ne hne).2 hmem)
      · rw [if_neg h]
        refine ⟨le_refl w, hnd, ?_, ?_, h⟩
        · intro p
          constructor
          · intro hp
            refine ⟨hp, ?_⟩
            rintro ⟨hy, hge, hlt⟩
            omega
          · rintro ⟨hp, h2⟩
            exact hp
        · intro i hge hlt
          omega

theorem growWidth_spec (x0 y0 : Int) :
    ∀ (w : Int) (pts : List Coord), pts.Nodup →
      w ≤ (growWidth x0 y0 w pts).1 ∧
      (growWidth x0 y0 w pts).2.Nodup ∧
      (∀ p : Coord, p ∈ (growWidth x0 y0 w pts).2 ↔
        p ∈ pts ∧ ¬(p.2 = y0 ∧ x0 + w ≤ p.1 ∧ p.1 < x0 + (growWidth x0 y0 w pts).1)) ∧
      (∀ i : Int, w ≤ i → i < (growWidth x0 y0 w pts).1 → (x0 + i, y0) ∈ pts) ∧
      (x0 + (growWidth x0 y0 w pts).1, y0) ∉ pts :=
  fun w pts hnd => growWidthAux_spec x0 y0 pts.length w pts hnd (le_refl _)

theorem rangeInt_succ_self (a : Int) : rangeInt a (a + 1) = [a] := by
  unfold rangeInt
  have h : (a + 1 - a).toNat = 1 := by omega
  have h0 : List.range 1 = [0] := by decide
  rw [h, h0]
  simp

theorem heightLoop_singleton (x0 w y h : Int) (pts : List Coord) :
    heightLoop x0 w [y] h pts =
      if rowFull x0 w y pts then (h + 1, removeRow x0 w y pts) else (h, pts) := by
  rw [heightLoop]
  by_cases hf : rowFull x0 w y pts
  · rw [if_pos hf, if_pos hf, heightLoop]
  · rw [if_neg hf, if_neg hf]

theorem splitStep_eq (x0 y0 : Int) (pts : List Coord) :
    splitStep x0 y0 pts =
      ((x0, y0, (growWidth x0 y0 1 pts).1,
        (heightLoop x0 (growWidth x0 y0 1 pts).1 [y0 + 1] 1 (growWidth x0 y0 1 pts).2).1),
       (heightLoop x0 (growWidth x0 y0 1 pts).1 [y0 + 1] 1 (growWidth x0 y0 1 pts).2).2) := by
  simp only [splitStep]
  rw [rangeInt_succ_self]

/-- `inRect` on a literal tuple, unfolded to its arithmetic content. -/
theorem inRect_mk {x0 y0 w h px py : Int} :
    inRect (x0, y0, w, h) (px, py) ↔
      x0 ≤ px ∧ px < x0 + w ∧ y0 ≤ py ∧ py < y0 + h :=
  Iff.rfl

/-- One outer-loop iteration: the emitted rectangle has origin `(x0, y0)`,
positive width, height `1` or `2`; the surviving points are exactly the old
ones not covered by the rectangle; and the rectangle covers nothing but the
origin and old points. -/
theorem splitStep_spec (x0 y0 : Int) (pts : List Coord) (hnd : pts.Nodup)
    (horig : (x0, y0) ∉ pts) :
    rectX (splitStep x0 y0 pts).1 = x0 ∧
    rectY (splitStep x0 y0 pts).1 = y0 ∧
    1 ≤ rectW (splitStep x0 y0 pts).1 ∧
    (rectH (splitStep x0 y0 pts).1 = 1 ∨ rectH (splitStep x0 y0 pts).1 = 2) ∧
    (splitStep x0 y0 pts).2.Nodup ∧
    (∀ p : Coord, p ∈ (splitStep x0 y0 pts).2 ↔ p ∈ pts ∧ ¬ inRect (splitStep x0 y0 pts).1 p) ∧
    (∀ p : Coord, inRect (splitStep x0 y0 pts).1 p → p = (x0, y0) ∨ p ∈ pts) := by
  obtain ⟨g1, g2, g3, g4, g5⟩ := growWidth_spec x0 y0 1 pts hnd
  rw [splitStep_eq, heightLoop_singleton]
  set w := (growWidth x0 y0 1 pts).1 with hw
  set pts1 := (growWidth x0 y0 1 pts).2 with hpts1
  have hmemrun : ∀ px : Int, x0 + 1 ≤ px → px < x0 + w → (px, y0) ∈ pts := by
    intro px hge hlt
    have h := g4 (px - x0) (by omega) (by omega)
    have heq : x0 + (px - x0) = px := by omega
    rwa [heq] at h
  by_cases hf : rowFull x0 w (y0 + 1) pts1
  · rw [if_pos hf]
    obtain ⟨rr1, rr2⟩ := @removeRow_spec x0 w (y0 + 1) _ g2
    have hfull := rowFull_iff.1 hf
    refine ⟨rfl, rfl, g1, Or.inr rfl, rr1, ?_, ?_⟩
    · intro p
      rw [rr2 p, g3 p]
      obtain ⟨px, py⟩ := p
      rw [inRect_mk]
      have hne : (px, py) ∈ pts → ¬(px = x0 ∧ py = y0) := by
        rintro hmem ⟨h1, h2⟩
        subst h1; subst h2
        exact horig hmem
      constructor
      · rintro ⟨⟨hmem, hrun⟩, hrow⟩
        have hne' := hne hmem
        exact ⟨hmem, by omega⟩
      · rintro ⟨hmem, hnin⟩
        have hne' := hne hmem
        exact ⟨⟨hmem, by omega⟩, by omega⟩
    · rintro ⟨px, py⟩ hin
      rw [inRect_mk] at hin
      by_cases hy : py = y0
      · subst hy
        by_cases hx : px = x0
        · subst hx; exact Or.inl rfl
        · exact Or.inr (hmemrun px (by omega) (by omega))
      · have hy1 : py = y0 + 1 := by omega
        subst hy1
        have h1 : (px, y0 + 1) ∈ pts1 := hfull px (by omega) (by omega)
        exact Or.inr ((g3 _).1 h1).1
  · rw [if_neg hf]
    refine ⟨rfl, rfl, g1, Or.inl rfl, g2, ?_, ?_⟩
    · intro p
      rw [g3 p]
      obtain ⟨px, py⟩ := p
      rw [inRect_mk]
      have hne : (px, py) ∈ pts → ¬(px = x0 ∧ py = y0) := by
        rintro hmem ⟨h1, h2⟩
        subst h1; subst h2
        exact horig hmem
      constructor
      · rintro ⟨hmem, hrun⟩
        have hne' := hne hmem
        exact ⟨hmem, by omega⟩
      · rintro ⟨hmem, hnin⟩
        have hne' := hne hmem
        exact ⟨hmem, by omega⟩
    · rintro ⟨px, py⟩ hin
      rw [inRect_mk] at hin
      have hy : py = y0 := by omega
      subst hy
      by_cases hx : px = x0
      · subst hx; exact Or.inl rfl
      · exact Or.inr (hmemrun px (by omega) (by omega))

/-- The decomposition loop on a duplicate-free point list: the emitted
rectangles cover exactly the input points, pairwise disjointly. -/
theorem splitLoopAux_spec :
    ∀ (fuel : Nat) (pts : List Coord), pts.Nodup → pts.length ≤ fuel →
      (∀ p : Coord, inRects (splitLoopAux fuel pts) p ↔ p ∈ pts) ∧
      (splitLoopAux fuel pts).Pairwise rectDisjoint := by
  intro fuel
  induction fuel with
  | zero =>
      intro pts hnd hlen
      have hnil : pts = [] := List.length_eq_zero.1 (Nat.le_zero.1 hlen)
      subst hnil
      constructor
      · intro p
        simp [splitLoopAux, inRects]
      · simp [splitLoopAux]
  | succ fuel ih =>
      intro pts hnd hlen
      match pts, hnd, hlen with
      | [], hnd, hlen =>
          constructor
          · intro p
            simp [splitLoopAux, inRects]
          · simp [splitLoopAux]
      | (x0, y0) :: pts, hnd, hlen =>
      have hndtail : pts.Nodup := hnd.of_cons
      have horig : (x0, y0) ∉ pts := by
        intro hmem
        exact (List.nodup_cons.1 hnd).1 hmem
      obtain ⟨s1, s2, s3, s4, s5, s6, s7⟩ := splitStep_spec x0 y0 pts hndtail horig
      have hlen' : (splitStep x0 y0 pts).2.length ≤ fuel := by
        have h1 := splitStep_length_le x0 y0 pts
        simp only [List.length_cons] at hlen
        omega
      obtain ⟨ih1, ih2⟩ := ih (splitStep x0 y0 pts).2 s5 hlen'
      have hloop : splitLoopAux (fuel + 1) ((x0, y0) :: pts) =
          (splitStep x0 y0 pts).1 :: splitLoopAux fuel (splitStep x0 y0 pts).2 := rfl
      rw [hloop]
      have htailmem : ∀ p : Coord, inRects (splitLoopAux fuel (splitStep x0 y0 pts).2) p →
          p ∈ pts ∧ ¬ inRect (splitStep x0 y0 pts).1 p := by
        intro p hp
        exact (s6 p).1 ((ih1 p).1 hp)
      constructor
      · intro p
        constructor
        · rintro ⟨r, hr, hpr⟩
          rcases List.mem_cons.1 hr with hr1 | hr2
          · subst hr1
            rcases s7 p hpr with h1 | h2
            · exact List.mem_cons.2 (Or.inl h1)
            · exact List.mem_cons.2 (Or.inr h2)
          · have := htailmem p ⟨r, hr2, hpr⟩
            exact List.mem_cons.2 (Or.inr this.1)
        · intro hp
          have h4 : 1 ≤ rectH (splitStep x0 y0 pts).1 := by
            rcases s4 with h | h <;> omega
          rcases List.mem_cons.1 hp with h1 | h2
          · refine ⟨(splitStep x0 y0 pts).1, List.mem_cons_self _ _, ?_⟩
            subst h1
            unfold inRect
            rw [s1, s2]
            refine ⟨by omega, by omega, by omega, by omega⟩
          · by_cases hin : inRect (splitStep x0 y0 pts).1 p
            · exact ⟨(splitStep x0 y0 pts).1, List.mem_cons_self _ _, hin⟩
            · have hmem2 : p ∈ (splitStep x0 y0 pts).2 := (s6 p).2 ⟨h2, hin⟩
              obtain ⟨r', hr', hpr'⟩ := (ih1 p).2 hmem2
              exact ⟨r', List.mem_cons.2 (Or.inr hr'), hpr'⟩
      · refine List.pairwise_cons.2 ⟨?_, ih2⟩
        intro a ha p hpr hpa
        exact (htailmem p ⟨a, ha, hpa⟩).2 hpr

theorem splitLoop_spec (pts : List Coord) (hnd : pts.Nodup) :
    (∀ p : Coord, inRects (splitLoop pts) p ↔ p ∈ pts) ∧
    (splitLoop pts).Pairwise rectDisjoint :=
  splitLoopAux_spec pts.length pts hnd (le_refl _)

/-! ### Basic lemmas about bounds, the grid list, and reachability -/

theorem outOfBounds_false_iff {g : Grid} {x y : Int} :
    outOfBounds g x y = false ↔ inBounds g (x, y) := by
  unfold outOfBounds inBounds
  simp only [Bool.or_eq_false_iff, decide_eq_false_iff_not, not_lt, not_le]
  omega

theorem mem_gridList {g : Grid} {p : Coord} : p ∈ gridList g ↔ inBounds g p := by
  obtain ⟨x, y⟩ := p
  unfold gridList inBounds
  simp only [List.mem_flatten, List.mem_map, List.mem_range]
  constructor
  · rintro ⟨l, ⟨yy, hyy, rfl⟩, hp⟩
    simp only [List.mem_map, List.mem_range] at hp
    obtain ⟨xx, hxx, heq⟩ := hp
    rw [Prod.mk.injEq] at heq
    obtain ⟨h1, h2⟩ := heq
    subst h1; subst h2
    refine ⟨by omega, by omega, by omega, by omega⟩
  · rintro ⟨h1, h2, h3, h4⟩
    refine ⟨_, ⟨y.toNat, by omega, rfl⟩, ?_⟩
    simp only [List.mem_map, List.mem_range]
    refine ⟨x.toNat, by omega, ?_⟩
    rw [Prod.mk.injEq]
    constructor <;> omega

theorem length_filter_le_of_imp {α : Type} (l : List α) (p q : α → Bool)
    (himp : ∀ a, q a = true → p a = true) :
    (l.filter q).length ≤ (l.filter p).length := by
  induction l with
  | nil => simp
  | cons a l ih =>
      simp only [List.filter_cons]
      by_cases hq : q a = true
      · rw [if_pos hq, if_pos (himp a hq)]
        simpa using ih
      · rw [if_neg hq]
        by_cases hp : p a = true
        · rw [if_pos hp]
          calc (l.filter q).length ≤ (l.filter p).length := ih
            _ ≤ (a :: l.filter p).length := by simp
        · rw [if_neg hp]
          exact ih

theorem length_filter_lt {α : Type} (l : List α) (p q : α → Bool)
    (himp : ∀ a, q a = true → p a = true) (a : α) (ha : a ∈ l)
    (hpa : p a = true) (hqa : q a = false) :
    (l.filter q).length < (l.filter p).length := by
  induction l with
  | nil => cases ha
  | cons b l ih =>
      simp only [List.filter_cons]
      rcases List.mem_cons.1 ha with rfl | hb
      · have hnq : ¬(q a = true) := by rw [hqa]; exact Bool.false_ne_true
        rw [if_pos hpa, if_neg hnq]
        have hle := length_filter_le_of_imp l p q himp
        simp only [List.length_cons]
        omega
      · by_cases hq : q b = true
        · rw [if_pos hq, if_pos (himp b hq)]
          have := ih hb
          simp only [List.length_cons]
          omega
        · rw [if_neg hq]
          by_cases hp : p b = true
          · rw [if_pos hp]
            have := ih hb
            simp only [List.length_cons]
            omega
          · rw [if_neg hp]
            exact ih hb

theorem adjacent_iff_mem_nbrs {x y : Int} {q : Coord} :
    adjacent (x, y) q ↔ q ∈ [(x + 1, y), (x - 1, y), (x, y + 1), (x, y - 1)] := by
  obtain ⟨qx, qy⟩ := q
  unfold adjacent
  simp only [List.mem_cons, Prod.mk.injEq, List.not_mem_nil, or_false]

theorem adjacent_symm {p q : Coord} (h : adjacent p q) : adjacent q p := by
  obtain ⟨px, py⟩ := p
  obtain ⟨qx, qy⟩ := q
  unfold adjacent at h ⊢
  omega

theorem floodStep_symm {g : Grid} {c : Nat} {p q : Coord} (h : floodStep g c p q) :
    floodStep g c q p :=
  ⟨h.2.1, h.1, adjacent_symm h.2.2⟩

theorem Reach_symm {g : Grid} {c : Nat} {p q : Coord} (h : Reach g c p q) :
    Reach g c q p := by
  induction h with
  | refl => exact Relation.ReflTransGen.refl
  | tail hab hbc ih => exact Relation.ReflTransGen.head (floodStep_symm hbc) ih

theorem Reach_goodCell {g : Grid} {c : Nat} {p q : Coord} (h : Reach g c p q)
    (hp : goodCell g c p) : goodCell g c q := by
  induction h with
  | refl => exact hp
  | tail hab hbc ih => exact hbc.2.1

theorem Reach_goodCell_head {g : Grid} {c : Nat} {p q : Coord} (h : Reach g c p q)
    (hq : goodCell g c q) : goodCell g c p :=
  Reach_goodCell (Reach_symm h) hq

/-! ### Correctness of the flood-fill loop -/

theorem FloodPost_nil (g : Grid) (c : Nat) (visited region : List Coord)
    (hndv : visited.Nodup) (hndr : region.Nodup)
    (hsub : ∀ p : Coord, p ∈ region → p ∈ visited) :
    FloodPost g c [] visited region (region, visited) := by
  refine ⟨fun p hp => hp, ?_, ?_, ?_, ?_, hndv, hndr⟩
  · intro p hp hg
    exact absurd hp (List.not_mem_nil p)
  · intro p hp hnp
    exact (hnp hp).elim
  · intro p hp hnp q hadj hgq
    exact (hnp hp).elim
  · intro p
    constructor
    · intro hp
      exact Or.inl hp
    · rintro (hp | ⟨h1, h2⟩)
      · exact hp
      · exact (h2 h1).elim

theorem FloodPost_skip (g : Grid) (c : Nat) (x y : Int)
    (rest visited region : List Coord) (out : List Coord × List Coord)
    (hhead : goodCell g c (x, y) → (x, y) ∈ out.2)
    (hpost : FloodPost g c rest visited region out) :
    FloodPost g c ((x, y) :: rest) visited region out := by
  obtain ⟨h1, h2, h3, h4, h5, h6, h7⟩ := hpost
  refine ⟨h1, ?_, ?_, h4, h5, h6, h7⟩
  · intro p hp hg
    rcases List.mem_cons.1 hp with rfl | hp'
    · exact hhead hg
    · exact h2 p hp' hg
  · intro p hp hnv
    obtain ⟨hg, q, hq, hr⟩ := h3 p hp hnv
    exact ⟨hg, q, List.mem_cons_of_mem _ hq, hr⟩

theorem floodLoopAux_spec (g : Grid) (c : Nat) :
    ∀ (fuel : Nat) (queue visited region : List Coord),
      floodMeasure g queue visited ≤ fuel →
      visited.Nodup → region.Nodup →
      (∀ p : Coord, p ∈ region → p ∈ visited) →
      FloodPost g c queue visited region (floodLoopAux g c fuel queue visited region) := by
  intro fuel
  induction fuel with
  | zero =>
      intro queue visited region hm hndv hndr hsub
      have hq : queue = [] := by
        unfold floodMeasure at hm
        exact List.length_eq_zero.1 (by omega)
      subst hq
      exact FloodPost_nil g c visited region hndv hndr hsub
  | succ fuel ih =>
      intro queue visited region hm hndv hndr hsub
      match queue, hm with
      | [], hm =>
          exact FloodPost_nil g c visited region hndv hndr hsub
      | (x, y) :: rest, hm =>
      have hmrest : floodMeasure g rest visited ≤ fuel := by
        unfold floodMeasure at hm ⊢
        simp only [List.length_cons] at hm
        omega
      by_cases hv : (x, y) ∈ visited
      · have heq : floodLoopAux g c (fuel + 1) ((x, y) :: rest) visited region =
            floodLoopAux g c fuel rest visited region := by
          simp only [floodLoopAux]
          rw [if_pos hv]
        rw [heq]
        have post := ih rest visited region hmrest hndv hndr hsub
        exact FloodPost_skip g c x y rest visited region _ (fun _ => post.1 (x, y) hv) post
      · by_cases hb : outOfBounds g x y = true
        · have heq : floodLoopAux g c (fuel + 1) ((x, y) :: rest) visited region =
              floodLoopAux g c fuel rest visited region := by
            simp only [floodLoopAux]
            rw [if_neg hv, if_pos hb]
          rw [heq]
          have post := ih rest visited region hmrest hndv hndr hsub
          refine FloodPost_skip g c x y rest visited region _ (fun hg => ?_) post
          have hfalse := outOfBounds_false_iff.2 hg.1
          rw [hb] at hfalse
          exact absurd hfalse (by decide)
        · have hbf : outOfBounds g x y = false := by
            cases hof : outOfBounds g x y
            · rfl
            · exact absurd hof hb
          have hinb : inBounds g (x, y) := outOfBounds_false_iff.1 hbf
          by_cases hcol : g.pix x y ≠ c
          · have heq : floodLoopAux g c (fuel + 1) ((x, y) :: rest) visited region =
                floodLoopAux g c fuel rest visited region := by
              simp only [floodLoopAux]
              rw [if_neg hv, if_neg hb, if_pos hcol]
            rw [heq]
            have post := ih rest visited region hmrest hndv hndr hsub
            refine FloodPost_skip g c x y rest visited region _ (fun hg => ?_) post
            exact absurd hg.2 hcol
          · have hpix : g.pix x y = c := not_not.1 hcol
            have hgood : goodCell g c (x, y) := ⟨hinb, hpix⟩
            have heq : floodLoopAux g c (fuel + 1) ((x, y) :: rest) visited region =
                floodLoopAux g c fuel
                  (rest ++ [(x + 1, y), (x - 1, y), (x, y + 1), (x, y - 1)])
                  ((x, y) :: visited) (region ++ [(x, y)]) := by
              simp only [floodLoopAux]
              rw [if_neg hv, if_neg hb, if_neg hcol]
            rw [heq]
            have hUdrop : unvisitedCount g ((x, y) :: visited) < unvisitedCount g visited := by
              unfold unvisitedCount
              refine length_filter_lt (gridList g) _ _ ?_ (x, y) (mem_gridList.2 hinb) ?_ ?_
              · intro a ha
                rw [decide_eq_true_eq] at ha ⊢
                exact fun hav => ha (List.mem_cons_of_mem _ hav)
              · exact decide_eq_true hv
              · exact decide_eq_false (not_not_intro (List.mem_cons_self _ _))
            have hm' : floodMeasure g
                (rest ++ [(x + 1, y), (x - 1, y), (x, y + 1), (x, y - 1)])
                ((x, y) :: visited) ≤ fuel := by
              unfold floodMeasure at hm ⊢
              simp only [List.length_cons, List.length_append] at hm ⊢
              simp only [List.length_cons, List.length_nil]
              omega
            have hndv' : ((x, y) :: visited).Nodup := List.nodup_cons.2 ⟨hv, hndv⟩
            have hndr' : (region ++ [(x, y)]).Nodup := by
              rw [List.nodup_append]
              refine ⟨hndr, List.nodup_singleton _, ?_⟩
              intro a ha hb'
              have haxy : a = (x, y) := by simpa using hb'
              rw [haxy] at ha
              exact hv (hsub _ ha)
            have hsub' : ∀ p : Coord, p ∈ region ++ [(x, y)] → p ∈ (x, y) :: visited := by
              intro p hp
              rcases List.mem_append.1 hp with h1 | h2
              · exact List.mem_cons_of_mem _ (hsub p h1)
              · have : p = (x, y) := by simpa using h2
                subst this
                exact List.mem_cons_self _ _
            obtain ⟨I1, I2, I3, I4, I5, I6, I7⟩ :=
              ih (rest ++ [(x + 1, y), (x - 1, y), (x, y + 1), (x, y - 1)])
                ((x, y) :: visited) (region ++ [(x, y)]) hm' hndv' hndr' hsub'
            have hxy_out : (x, y) ∈
                (floodLoopAux g c fuel
                  (rest ++ [(x + 1, y), (x - 1, y), (x, y + 1), (x, y - 1)])
                  ((x, y) :: visited) (region ++ [(x, y)])).2 :=
              I1 (x, y) (List.mem_cons_self _ _)
            refine ⟨?_, ?_, ?_, ?_, ?_, I6, I7⟩
            · intro p hp
              exact I1 p (List.mem_cons_of_mem _ hp)
            · intro p hp hg
              rcases List.mem_cons.1 hp with rfl | hp'
              · exact hxy_out
              · exact I2 p (List.mem_append_left _ hp') hg
            · intro p hp hnv
              by_cases hpxy : p = (x, y)
              · subst hpxy
                exact ⟨hgood, (x, y), List.mem_cons_self _ _, Relation.ReflTransGen.refl⟩
              · have hnv' : p ∉ (x, y) :: visited := by
                  intro hmem
                  rcases List.mem_cons.1 hmem with h1 | h2
                  · exact hpxy h1
                  · exact hnv h2
                obtain ⟨hg, q, hq, hr⟩ := I3 p hp hnv'
                rcases List.mem_append.1 hq with hq1 | hq2
                · exact ⟨hg, q, List.mem_cons_of_mem _ hq1, hr⟩
                · have hadj : adjacent (x, y) q := adjacent_iff_mem_nbrs.2 hq2
                  have hgq : goodCell g c q := Reach_goodCell_head hr hg
                  exact ⟨hg, (x, y), List.mem_cons_self _ _,
                    Relation.ReflTransGen.head ⟨hgood, hgq, hadj⟩ hr⟩
            · intro p hp hnv q hadj hgq
              by_cases hpxy : p = (x, y)
              · subst hpxy
                have hqn : q ∈ [(x + 1, y), (x - 1, y), (x, y + 1), (x, y - 1)] :=
                  adjacent_iff_mem_nbrs.1 hadj
                exact I2 q (List.mem_append_right _ hqn) hgq
              · have hnv' : p ∉ (x, y) :: visited := by
                  intro hmem
                  rcases List.mem_cons.1 hmem with h1 | h2
                  · exact hpxy h1
                  · exact hnv h2
                exact I4 p hp hnv' q hadj hgq
            · intro p
              constructor
              · intro hp
                rcases (I5 p).1 hp with hr | ⟨h2, h3⟩
                · rcases List.mem_append.1 hr with h4 | h5
                  · exact Or.inl h4
                  · have : p = (x, y) := by simpa using h5
                    subst this
                    exact Or.inr ⟨hxy_out, hv⟩
                · exact Or.inr ⟨h2, fun hmem => h3 (List.mem_cons_of_mem _ hmem)⟩
              · intro hp
                apply (I5 p).2
                rcases hp with h1 | ⟨h2, h3⟩
                · exact Or.inl (List.mem_append_left _ h1)
                · by_cases hpxy : p = (x, y)
                  · subst hpxy
                    exact Or.inl (List.mem_append_right _ (by simp))
                  · refine Or.inr ⟨h2, ?_⟩
                    intro hmem
                    rcases List.mem_cons.1 hmem with h4 | h5
                    · exact hpxy h4
                    · exact h3 h5

/-- Run from an unvisited good seed over a visited set that is closed under
same-color adjacency, `flood_fill` returns exactly the seed's same-color
4-connected reachable set, disjoint from and added to the visited set, which
stays closed. -/
theorem flood_fill_component (g : Grid) (sx sy : Int) (c : Nat) (visited : List Coord)
    (hnd : visited.Nodup) (hclosed : ClosedUnderColor g visited)
    (hgood : goodCell g c (sx, sy)) (hun : (sx, sy) ∉ visited) :
    (∀ p : Coord, p ∈ (flood_fill g sx sy c visited).1 ↔ Reach g c (sx, sy) p) ∧
    (∀ p : Coord, p ∈ (flood_fill g sx sy c visited).2 ↔
      p ∈ visited ∨ p ∈ (flood_fill g sx sy c visited).1) ∧
    (flood_fill g sx sy c visited).1.Nodup ∧
    (flood_fill g sx sy c visited).2.Nodup ∧
    (∀ p : Coord, p ∈ (flood_fill g sx sy c visited).1 → p ∉ visited) ∧
    ClosedUnderColor g (flood_fill g sx sy c visited).2 ∧
    (sx, sy) ∈ (flood_fill g sx sy c visited).1 ∧
    (∀ p : Coord, p ∈ (flood_fill g sx sy c visited).1 → goodCell g c p) := by
  have hmeas : floodMeasure g [(sx, sy)] visited ≤ 5 * (gridList g).length + 1 := by
    unfold floodMeasure unvisitedCount
    have hle := List.length_filter_le (fun p => decide (p ∉ visited)) (gridList g)
    simp only [List.length_cons, List.length_nil]
    omega
  obtain ⟨P1, P2, P3, P4, P5, P6, P7⟩ :=
    floodLoopAux_spec g c (5 * (gridList g).length + 1) [(sx, sy)] visited []
      hmeas hnd List.nodup_nil (fun p hp => absurd hp (List.not_mem_nil p))
  have hseed_out : (sx, sy) ∈ (flood_fill g sx sy c visited).2 :=
    P2 (sx, sy) (List.mem_cons_self _ _) hgood
  have hreach_in : ∀ p : Coord, Reach g c (sx, sy) p →
      p ∈ (flood_fill g sx sy c visited).2 ∧ p ∉ visited := by
    intro p hr
    induction hr with
    | refl => exact ⟨hseed_out, hun⟩
    | tail hab hbc ih =>
        obtain ⟨hb2, hbnv⟩ := ih
        refine ⟨P4 _ hb2 hbnv _ hbc.2.2 hbc.2.1, ?_⟩
        intro hpv
        have hpixeq : g.pix _ _ = g.pix _ _ := (hbc.1.2.trans hbc.2.1.2.symm)
        exact hbnv (hclosed _ hpv _ (adjacent_symm hbc.2.2) hbc.1.1 hpixeq)
  have hmem1 : ∀ p : Coord, p ∈ (flood_fill g sx sy c visited).1 ↔ Reach g c (sx, sy) p := by
    intro p
    constructor
    · intro hp
      rcases (P5 p).1 hp with h | ⟨h2, h3⟩
      · exact absurd h (List.not_mem_nil p)
      · obtain ⟨hg, q, hq, hr⟩ := P3 p h2 h3
        have hq' : q = (sx, sy) := by simpa using hq
        rw [hq'] at hr
        exact hr
    · intro hr
      obtain ⟨h1, h2⟩ := hreach_in p hr
      exact (P5 p).2 (Or.inr ⟨h1, h2⟩)
  refine ⟨hmem1, ?_, P7, P6, ?_, ?_, ?_, ?_⟩
  · intro p
    constructor
    · intro hp
      by_cases hv : p ∈ visited
      · exact Or.inl hv
      · exact Or.inr ((P5 p).2 (Or.inr ⟨hp, hv⟩))
    · rintro (h | h)
      · exact P1 p h
      · rcases (P5 p).1 h with h' | ⟨h2, _⟩
        · exact absurd h' (List.not_mem_nil p)
        · exact h2
  · intro p hp
    rcases (P5 p).1 hp with h | ⟨_, h3⟩
    · exact absurd h (List.not_mem_nil p)
    · exact h3
  · intro p hp q hadj hbq hpix
    by_cases hv : p ∈ visited
    · exact P1 q (hclosed p hv q hadj hbq hpix)
    · obtain ⟨hg, _⟩ := P3 p hp hv
      have hq : goodCell g c q := ⟨hbq, by rw [hpix, hg.2]⟩
      exact P4 p hp hv q hadj hq
  · exact (P5 (sx, sy)).2 (Or.inr ⟨hseed_out, hun⟩)
  · intro p hp
    rcases (P5 p).1 hp with h | ⟨h2, h3⟩
    · exact absurd h (List.not_mem_nil p)
    · exact (P3 p h2 h3).1

/-! ### The region-scan invariant -/

theorem allComps_nil : allComps [] = [] := rfl

theorem allComps_cons (c' : Nat) (comps : List (List Coord))
    (rest : List (Nat × List (List Coord))) :
    allComps ((c', comps) :: rest) =
      comps.map (fun pts => (c', pts)) ++ allComps rest := rfl

theorem allComps_addRegion (regions : List (Nat × List (List Coord))) (c : Nat)
    (pts : List Coord) :
    List.Perm (allComps (addRegion regions c pts)) (allComps regions ++ [(c, pts)]) := by
  induction regions with
  | nil =>
      simp [addRegion, allComps]
  | cons hd rest ih =>
      obtain ⟨c', comps⟩ := hd
      by_cases hcc : c' = c
      · subst hcc
        have hstep : addRegion ((c', comps) :: rest) c' pts = (c', comps ++ [pts]) :: rest := by
          simp [addRegion]
        rw [hstep, allComps_cons, allComps_cons, List.map_append]
        simp only [List.map_cons, List.map_nil]
        rw [List.append_assoc, List.append_assoc]
        exact List.Perm.append_left _ (List.perm_append_comm)
      · have hstep : addRegion ((c', comps) :: rest) c pts =
            (c', comps) :: addRegion rest c pts := by
          simp [addRegion, hcc]
        rw [hstep, allComps_cons, allComps_cons, List.append_assoc]
        exact List.Perm.append_left _ ih

theorem keys_addRegion (regions : List (Nat × List (List Coord))) (c : Nat)
    (pts : List Coord) :
    (addRegion regions c pts).map Prod.fst =
      if c ∈ regions.map Prod.fst then regions.map Prod.fst
      else regions.map Prod.fst ++ [c] := by
  induction regions with
  | nil => simp [addRegion]
  | cons hd rest ih =>
      obtain ⟨c', comps⟩ := hd
      by_cases hcc : c' = c
      · subst hcc
        have hstep : addRegion ((c', comps) :: rest) c' pts = (c', comps ++ [pts]) :: rest := by
          simp [addRegion]
        rw [hstep, List.map_cons, List.map_cons, if_pos (List.mem_cons_self _ _)]
      · have hstep : addRegion ((c', comps) :: rest) c pts =
            (c', comps) :: addRegion rest c pts := by
          simp [addRegion, hcc]
        rw [hstep]
        simp only [List.map_cons, ih]
        by_cases hmem : c ∈ rest.map Prod.fst
        · rw [if_pos hmem, if_pos (List.mem_cons_of_mem _ hmem)]
        · have hnc : c ∉ (c' : Nat) :: rest.map Prod.fst := by
            intro hmem'
            rcases List.mem_cons.1 hmem' with h1 | h2
            · exact hcc h1.symm
            · exact hmem h2
          rw [if_neg hmem, if_neg hnc]
          simp

theorem compDisjoint_symm :
    Symmetric (fun a b : Nat × List Coord => ∀ p : Coord, p ∈ a.2 → p ∉ b.2) := by
  intro a b h p hpb hpa
  exact h p hpa hpb

theorem scan_fold_inv (g : Grid) :
    ∀ (cells : List Coord) (st : List (Nat × List (List Coord)) × List Coord),
      RegionsInv g st → (∀ p : Coord, p ∈ cells → inBounds g p) →
      RegionsInv g (cells.foldl (scanStep g) st) ∧
      (∀ p : Coord, p ∈ st.2 → p ∈ (cells.foldl (scanStep g) st).2) ∧
      (∀ p : Coord, p ∈ cells → p ∈ (cells.foldl (scanStep g) st).2) := by
  intro cells
  induction cells with
  | nil =>
      intro st hinv hb
      exact ⟨hinv, fun p hp => hp, fun p hp => absurd hp (List.not_mem_nil p)⟩
  | cons p0 cells ih =>
      intro st hinv hb
      obtain ⟨px, py⟩ := p0
      have hb0 : inBounds g (px, py) := hb (px, py) (List.mem_cons_self _ _)
      have hbrest : ∀ p : Coord, p ∈ cells → inBounds g p :=
        fun p hp => hb p (List.mem_cons_of_mem _ hp)
      rw [List.foldl_cons]
      by_cases hv : (px, py) ∈ st.2
      · have hstep : scanStep g st (px, py) = st := by
          unfold scanStep
          rw [if_pos hv]
        rw [hstep]
        obtain ⟨h1, h2, h3⟩ := ih st hinv hbrest
        refine ⟨h1, h2, ?_⟩
        intro p hp
        rcases List.mem_cons.1 hp with rfl | hp'
        · exact h2 _ hv
        · exact h3 p hp'
      · obtain ⟨V1, V2, V3, V4, V5, V6, V7⟩ := hinv
        have hgood : goodCell g (g.pix px py) (px, py) := ⟨hb0, rfl⟩
        obtain ⟨F1, F2, F3, F4, F5, F6, F7, F8⟩ :=
          flood_fill_component g px py (g.pix px py) st.2 V3 V2 hgood hv
        have hstep : scanStep g st (px, py) =
            (addRegion st.1 (g.pix px py) (flood_fill g px py (g.pix px py) st.2).1,
              (flood_fill g px py (g.pix px py) st.2).2) := by
          unfold scanStep
          rw [if_neg hv]
        have hperm := allComps_addRegion st.1 (g.pix px py)
          (flood_fill g px py (g.pix px py) st.2).1
        have hccmem : ∀ cc : Nat × List Coord,
            cc ∈ allComps (addRegion st.1 (g.pix px py)
              (flood_fill g px py (g.pix px py) st.2).1) ↔
            cc ∈ allComps st.1 ∨
              cc = (g.pix px py, (flood_fill g px py (g.pix px py) st.2).1) := by
          intro cc
          rw [hperm.mem_iff, List.mem_append]
          simp
        have hinv' : RegionsInv g (addRegion st.1 (g.pix px py)
            (flood_fill g px py (g.pix px py) st.2).1,
            (flood_fill g px py (g.pix px py) st.2).2) := by
          refine ⟨?_, F6, F4, ?_, ?_, ?_, ?_⟩
          · intro p
            constructor
            · intro hp
              rcases (F2 p).1 hp with h1 | h2
              · obtain ⟨cc, hcc, hpc⟩ := (V1 p).1 h1
                exact ⟨cc, (hccmem cc).2 (Or.inl hcc), hpc⟩
              · exact ⟨(g.pix px py, (flood_fill g px py (g.pix px py) st.2).1),
                  (hccmem _).2 (Or.inr rfl), h2⟩
            · rintro ⟨cc, hcc, hpc⟩
              rcases (hccmem cc).1 hcc with h1 | h2
              · exact (F2 p).2 (Or.inl ((V1 p).2 ⟨cc, h1, hpc⟩))
              · rw [h2] at hpc
                exact (F2 p).2 (Or.inr hpc)
          · intro cc hcc
            rcases (hccmem cc).1 hcc with h1 | h2
            · exact V4 cc h1
            · rw [h2]
              exact ⟨(px, py), hgood, F1⟩
          · intro cc hcc
            rcases (hccmem cc).1 hcc with h1 | h2
            · exact V5 cc h1
            · rw [h2]
              exact F3
          · have hpairs : List.Pairwise
                (fun a b : Nat × List Coord => ∀ p : Coord, p ∈ a.2 → p ∉ b.2)
                (allComps st.1 ++
                  [(g.pix px py, (flood_fill g px py (g.pix px py) st.2).1)]) := by
              rw [List.pairwise_append]
              refine ⟨V6, List.pairwise_singleton _ _, ?_⟩
              intro a ha b hb' p hpa
              have hb'' : b = (g.pix px py, (flood_fill g px py (g.pix px py) st.2).1) := by
                simpa using hb'
              rw [hb'']
              intro hpb
              exact F5 p hpb ((V1 p).2 ⟨a, ha, hpa⟩)
            exact (List.Perm.pairwise_iff (fun hxy => compDisjoint_symm hxy) hperm).2 hpairs
          · rw [keys_addRegion]
            by_cases hkey : g.pix px py ∈ st.1.map Prod.fst
            · rw [if_pos hkey]
              exact V7
            · rw [if_neg hkey]
              rw [List.nodup_append]
              refine ⟨V7, List.nodup_singleton _, ?_⟩
              intro a ha ha'
              have : a = g.pix px py := by simpa using ha'
              rw [this] at ha
              exact hkey ha
        rw [hstep]
        obtain ⟨h1, h2, h3⟩ := ih _ hinv' hbrest
        refine ⟨h1, ?_, ?_⟩
        · intro p hp
          exact h2 p ((F2 p).2 (Or.inl hp))
        · intro p hp
          rcases List.mem_cons.1 hp with rfl | hp'
          · exact h2 _ ((F2 _).2 (Or.inr F7))
          · exact h3 p hp'

theorem RegionsInv_init (g : Grid) : RegionsInv g ([], []) := by
  refine ⟨?_, ?_, List.nodup_nil, ?_, ?_, ?_, ?_⟩
  · intro p
    simp [allComps]
  · intro p hp
    exact absurd hp (List.not_mem_nil p)
  · intro cc hcc
    exact absurd hcc (List.not_mem_nil cc)
  · intro cc hcc
    exact absurd hcc (List.not_mem_nil cc)
  · exact List.Pairwise.nil
  · exact List.nodup_nil

/-- The scan of `find_color_regions` establishes the full invariant, and its
visited set ends up holding every in-bounds coordinate. -/
theorem find_color_regions_inv (g : Grid) :
    RegionsInv g ((gridList g).foldl (scanStep g) ([], [])) ∧
    (∀ p : Coord, inBounds g p → p ∈ ((gridList g).foldl (scanStep g) ([], [])).2) := by
  obtain ⟨h1, h2, h3⟩ := scan_fold_inv g (gridList g) ([], []) (RegionsInv_init g)
    (fun p hp => mem_gridList.1 hp)
  exact ⟨h1, fun p hp => h3 p (mem_gridList.2 hp)⟩

/-- Exactness of the rectangle decomposition on an arbitrary point list. -/
theorem split_into_rects_spec (points : List Coord) :
    (∀ p : Coord, inRects (split_into_rects points) p ↔ p ∈ points) ∧
    (split_into_rects points).Pairwise rectDisjoint := by
  obtain ⟨h1, h2⟩ := splitLoop_spec points.dedup points.nodup_dedup
  exact ⟨fun p => (h1 p).trans (List.mem_dedup), h2⟩

theorem splitStep_height (x0 y0 : Int) (pts : List Coord) :
    rectH (splitStep x0 y0 pts).1 = 1 ∨ rectH (splitStep x0 y0 pts).1 = 2 := by
  rw [splitStep_eq, heightLoop_singleton]
  by_cases hf : rowFull x0 (growWidth x0 y0 1 pts).1 (y0 + 1) (growWidth x0 y0 1 pts).2
  · rw [if_pos hf]
    right
    rfl
  · rw [if_neg hf]
    left
    rfl

theorem splitLoopAux_height :
    ∀ (fuel : Nat) (pts : List Coord) (r : Rect), r ∈ splitLoopAux fuel pts →
      rectH r = 1 ∨ rectH r = 2 := by
  intro fuel
  induction fuel with
  | zero =>
      intro pts r hr
      simp [splitLoopAux] at hr
  | succ fuel ih =>
      intro pts r hr
      match pts, hr with
      | [], hr => simp [splitLoopAux] at hr
      | (x0, y0) :: pts, hr =>
          have heq : splitLoopAux (fuel + 1) ((x0, y0) :: pts) =
              (splitStep x0 y0 pts).1 :: splitLoopAux fuel (splitStep x0 y0 pts).2 := rfl
          rw [heq] at hr
          rcases List.mem_cons.1 hr with h1 | h2
          · rw [h1]
            exact splitStep_height x0 y0 pts
          · exact ih _ r h2

theorem splitLoopAux_length_le :
    ∀ (fuel : Nat) (pts : List Coord), (splitLoopAux fuel pts).length ≤ pts.length := by
  intro fuel
  induction fuel with
  | zero =>
      intro pts
      simp [splitLoopAux]
  | succ fuel ih =>
      intro pts
      match pts with
      | [] => simp [splitLoopAux]
      | (x0, y0) :: pts =>
          have heq : splitLoopAux (fuel + 1) ((x0, y0) :: pts) =
              (splitStep x0 y0 pts).1 :: splitLoopAux fuel (splitStep x0 y0 pts).2 := rfl
          rw [heq]
          simp only [List.length_cons]
          have h1 := splitStep_length_le x0 y0 pts
          have h2 := ih (splitStep x0 y0 pts).2
          omega

theorem splitLoopFrame_eq (caller : List Coord) :
    ∀ (fuel : Nat) (pts : List Coord),
      splitLoopFrame caller fuel pts = (splitLoopAux fuel pts, caller) := by
  intro fuel
  induction fuel with
  | zero =>
      intro pts
      cases pts <;> rfl
  | succ fuel ih =>
      intro pts
      match pts with
      | [] => rfl
      | (x0, y0) :: pts =>
          have heq : splitLoopAux (fuel + 1) ((x0, y0) :: pts) =
              (splitStep x0 y0 pts).1 :: splitLoopAux fuel (splitStep x0 y0 pts).2 := rfl
          show ((splitStep x0 y0 pts).1 ::
              (splitLoopFrame caller fuel (splitStep x0 y0 pts).2).1,
              (splitLoopFrame caller fuel (splitStep x0 y0 pts).2).2) = _
          rw [ih, heq]

/-- `find_color_regions` produces a partition of the in-bounds cells into
duplicate-free maximal 4-connected same-color components, with
pairwise-distinct dict keys. -/
theorem find_color_regions_components (g : Grid) :
    (∀ p : Coord, inBounds g p → ∃ cc ∈ allComps (find_color_regions g), p ∈ cc.2) ∧
    (allComps (find_color_regions g)).Pairwise
      (fun a b => ∀ p : Coord, p ∈ a.2 → p ∉ b.2) ∧
    (∀ cc ∈ allComps (find_color_regions g), ∀ p ∈ cc.2, goodCell g cc.1 p) ∧
    (∀ cc ∈ allComps (find_color_regions g), ∀ p ∈ cc.2, ∀ q ∈ cc.2, Reach g cc.1 p q) ∧
    (∀ cc ∈ allComps (find_color_regions g), ∀ p ∈ cc.2, ∀ q : Coord,
      adjacent p q → inBounds g q → g.pix q.1 q.2 = cc.1 → q ∈ cc.2) ∧
    (∀ cc ∈ allComps (find_color_regions g), cc.2.Nodup) ∧
    ((find_color_regions g).map Prod.fst).Nodup := by
  obtain ⟨⟨V1, V2, V3, V4, V5, V6, V7⟩, hcov⟩ := find_color_regions_inv g
  refine ⟨?_, V6, ?_, ?_, ?_, V5, V7⟩
  · intro p hp
    exact (V1 p).1 (hcov p hp)
  · intro cc hcc p hpc
    obtain ⟨s, hs, hiff⟩ := V4 cc hcc
    exact Reach_goodCell ((hiff p).1 hpc) hs
  · intro cc hcc p hpc q hqc
    obtain ⟨s, hs, hiff⟩ := V4 cc hcc
    exact (Reach_symm ((hiff p).1 hpc)).trans ((hiff q).1 hqc)
  · intro cc hcc p hpc q hadj hbq hpix
    obtain ⟨s, hs, hiff⟩ := V4 cc hcc
    have hgp : goodCell g cc.1 p := Reach_goodCell ((hiff p).1 hpc) hs
    have hgq : goodCell g cc.1 q := ⟨hbq, hpix⟩
    exact (hiff q).2 (((hiff p).1 hpc).tail ⟨hgp, hgq, hadj⟩)

/-! ### Catalog-level lemmas -/

theorem allRects_cons (c : Nat) (rl : List Rect) (rest : List (Nat × List Rect)) :
    allRects ((c, rl) :: rest) = rl.map (fun r => (c, r)) ++ allRects rest := rfl

theorem create_rects_cons (c : Nat) (comps : List (List Coord))
    (rest : List (Nat × List (List Coord))) :
    create_rects ((c, comps) :: rest) =
      (c, (comps.map split_into_rects).flatten) :: create_rects rest := rfl

theorem allRects_create_rects (regions : List (Nat × List (List Coord))) :
    allRects (create_rects regions) =
      ((allComps regions).map
        (fun cc => (split_into_rects cc.2).map (fun r => (cc.1, r)))).flatten := by
  induction regions with
  | nil => rfl
  | cons hd rest ih =>
      obtain ⟨c, comps⟩ := hd
      rw [create_rects_cons, allRects_cons, allComps_cons, List.map_append,
        List.flatten_append, ih]
      congr 1
      rw [List.map_flatten, List.map_map, List.map_map]
      rfl

theorem mem_allRects {rects : List (Nat × List Rect)} {cr : Nat × Rect} :
    cr ∈ allRects rects ↔ ∃ entry ∈ rects, cr.1 = entry.1 ∧ cr.2 ∈ entry.2 := by
  unfold allRects
  rw [List.mem_flatten]
  constructor
  · rintro ⟨l, hl, hcr⟩
    obtain ⟨entry, hentry, rfl⟩ := List.mem_map.1 hl
    obtain ⟨r, hr, heq⟩ := List.mem_map.1 hcr
    subst heq
    exact ⟨entry, hentry, rfl, hr⟩
  · rintro ⟨entry, hentry, h1, h2⟩
    refine ⟨entry.2.map (fun r => (entry.1, r)), List.mem_map.2 ⟨entry, hentry, rfl⟩, ?_⟩
    refine List.mem_map.2 ⟨cr.2, h2, ?_⟩
    rw [← h1]

theorem keys_create_rects (regions : List (Nat × List (List Coord))) :
    (create_rects regions).map Prod.fst = regions.map Prod.fst := by
  unfold create_rects
  rw [List.map_map]
  rfl

theorem assoc_unique {β : Type} :
    ∀ (l : List (Nat × β)), (l.map Prod.fst).Nodup →
      ∀ {c : Nat} {a b : β}, (c, a) ∈ l → (c, b) ∈ l → a = b := by
  intro l
  induction l with
  | nil =>
      intro _ c a b ha
      exact absurd ha (List.not_mem_nil _)
  | cons hd rest ih =>
      intro hnd c a b ha hb
      rw [List.map_cons, List.nodup_cons] at hnd
      obtain ⟨hnotin, hndrest⟩ := hnd
      rcases List.mem_cons.1 ha with ha1 | ha2 <;> rcases List.mem_cons.1 hb with hb1 | hb2
      · exact congrArg Prod.snd (ha1.trans hb1.symm)
      · exfalso
        apply hnotin
        rw [← ha1]
        exact List.mem_map.2 ⟨(c, b), hb2, rfl⟩
      · exfalso
        apply hnotin
        rw [← hb1]
        exact List.mem_map.2 ⟨(c, a), ha2, rfl⟩
      · exact ih hndrest ha2 hb2

/-- The catalog covers every in-bounds coordinate, its rectangles are
pairwise disjoint, and each rectangle stays inside its group's color. -/
theorem catalog_spec (g : Grid) :
    (∀ p : Coord, inBounds g p →
      ∃ cr ∈ allRects (create_rects (find_color_regions g)), inRect cr.2 p) ∧
    (allRects (create_rects (find_color_regions g))).Pairwise
      (fun a b => ∀ p : Coord, inRect a.2 p → ¬ inRect b.2 p) ∧
    (∀ cr ∈ allRects (create_rects (find_color_regions g)), ∀ p : Coord,
      inRect cr.2 p → inBounds g p ∧ g.pix p.1 p.2 = cr.1) := by
  obtain ⟨hcov, hdisj, hgood, hreach, hmax, hnodup, hkeys⟩ := find_color_regions_components g
  rw [allRects_create_rects]
  refine ⟨?_, ?_, ?_⟩
  · intro p hp
    obtain ⟨cc, hcc, hpc⟩ := hcov p hp
    obtain ⟨r, hr, hrp⟩ := ((split_into_rects_spec cc.2).1 p).2 hpc
    refine ⟨(cc.1, r), ?_, hrp⟩
    rw [List.mem_flatten]
    exact ⟨(split_into_rects cc.2).map (fun r => (cc.1, r)),
      List.mem_map.2 ⟨cc, hcc, rfl⟩, List.mem_map.2 ⟨r, hr, rfl⟩⟩
  · rw [List.pairwise_flatten]
    constructor
    · intro l hl
      obtain ⟨cc, hcc, rfl⟩ := List.mem_map.1 hl
      rw [List.pairwise_map]
      exact (split_into_rects_spec cc.2).2
    · rw [List.pairwise_map]
      refine List.Pairwise.imp ?_ hdisj
      intro a b hab x hx y hy p hxp hyp
      obtain ⟨r1, hr1, rfl⟩ := List.mem_map.1 hx
      obtain ⟨r2, hr2, rfl⟩ := List.mem_map.1 hy
      have hpa : p ∈ a.2 := ((split_into_rects_spec a.2).1 p).1 ⟨r1, hr1, hxp⟩
      have hpb : p ∈ b.2 := ((split_into_rects_spec b.2).1 p).1 ⟨r2, hr2, hyp⟩
      exact hab p hpa hpb
  · intro cr hcr p hrp
    rw [List.mem_flatten] at hcr
    obtain ⟨l, hl, hcrl⟩ := hcr
    obtain ⟨cc, hcc, rfl⟩ := List.mem_map.1 hl
    obtain ⟨r, hr, rfl⟩ := List.mem_map.1 hcrl
    have hpm : p ∈ cc.2 := ((split_into_rects_spec cc.2).1 p).1 ⟨r, hr, hrp⟩
    exact ⟨(hgood cc hcc p hpm).1, (hgood cc hcc p hpm).2⟩

/-! ## Claim theorems -/

/-- C1: the claim (and the spec's height-growth step) say candidate rows
`y0+1, y0+2, ...` are absorbed until one fails, so the 9-point component of an
all-one-color 3×3 grid decomposes into the single rectangle (0,0,3,3).  The
code's `for y in range(y0 + 1, y0 + height + 1)` builds its range once while
`height == 1`, so only row `y0+1` is ever examined: the component decomposes
into `[(0,0,3,2), (0,2,3,1)]`, and the full pipeline on the 3×3 grid likewise
emits those two rectangles. -/
theorem C1_grow_height_stops_after_one_row :
    split_into_rects nineComponent = [(0, 0, 3, 2), (0, 2, 3, 1)] ∧
    split_into_rects nineComponent ≠ [(0, 0, 3, 3)] ∧
    create_rects (find_color_regions grid3) = [(0, [(0, 0, 3, 2), (0, 2, 3, 1)])] :=
  ⟨by decide, by decide, by decide⟩

/-- C2 counterexample: on the 10×10 grid with color 1 at (0,0) and (5,5)
only, the two same-colored but 4-disconnected pixels end up covered by
rectangles of one and the same group (the catalog has exactly two groups, one
per color), refuting "same group iff 4-connected" and the claimed two separate
groups of Scenario C. -/
theorem C2_counterexample_same_group_disconnected :
    sameGroup (create_rects (find_color_regions grid10)) (0, 0) (5, 5) ∧
    ¬ Reach grid10 1 (0, 0) (5, 5) ∧
    grid10.pix 0 0 = 1 ∧ grid10.pix 5 5 = 1 ∧
    (create_rects (find_color_regions grid10)).length = 2 := by
  refine ⟨by decide, ?_, by decide, by decide, by decide⟩
  intro hr
  rcases Relation.ReflTransGen.cases_head hr with heq | ⟨c', hstep, hrest⟩
  · exact absurd heq (by decide)
  · obtain ⟨hg0, hgc, hadj⟩ := hstep
    obtain ⟨cx, cy⟩ := c'
    have hpix : (if (cx = 0 ∧ cy = 0) ∨ (cx = 5 ∧ cy = 5) then 1 else 0) = 1 := hgc.2
    have hcases : (cx = 0 ∧ cy = 0) ∨ (cx = 5 ∧ cy = 5) := by
      by_contra hcon
      rw [if_neg hcon] at hpix
      exact absurd hpix (by decide)
    rcases hcases with ⟨h1, h2⟩ | ⟨h1, h2⟩
    · subst h1; subst h2
      exact absurd hadj (by decide)
    · subst h1; subst h2
      exact absurd hadj (by decide)

/-- C2 amended: in the emitted catalog two in-bounds coordinates end up in the
same RegionGroup iff they have the same color — grouping is per color, not per
connected component, so same-colored disconnected components share one group. -/
theorem C2_amended_groups_by_color (g : Grid) (p q : Coord)
    (hp : inBounds g p) (hq : inBounds g q) :
    sameGroup (create_rects (find_color_regions g)) p q ↔
      g.pix p.1 p.2 = g.pix q.1 q.2 := by
  obtain ⟨hcov, hdisj, hcolor⟩ := catalog_spec g
  constructor
  · rintro ⟨entry, hentry, ⟨r1, hr1, hrp⟩, ⟨r2, hr2, hrq⟩⟩
    have h1 := hcolor (entry.1, r1) (mem_allRects.2 ⟨entry, hentry, rfl, hr1⟩) p hrp
    have h2 := hcolor (entry.1, r2) (mem_allRects.2 ⟨entry, hentry, rfl, hr2⟩) q hrq
    rw [h1.2, h2.2]
  · intro hpix
    obtain ⟨cr1, hcr1, hrp⟩ := hcov p hp
    obtain ⟨cr2, hcr2, hrq⟩ := hcov q hq
    obtain ⟨e1, he1, hk1, hm1⟩ := mem_allRects.1 hcr1
    obtain ⟨e2, he2, hk2, hm2⟩ := mem_allRects.1 hcr2
    have hc1 : g.pix p.1 p.2 = cr1.1 := (hcolor cr1 hcr1 p hrp).2
    have hc2 : g.pix q.1 q.2 = cr2.1 := (hcolor cr2 hcr2 q hrq).2
    have hkeys : ((create_rects (find_color_regions g)).map Prod.fst).Nodup := by
      rw [keys_create_rects]
      exact (find_color_regions_components g).2.2.2.2.2.2
    obtain ⟨e1c, e1l⟩ := e1
    obtain ⟨e2c, e2l⟩ := e2
    have hkeq : e1c = e2c := by
      have : e1c = cr1.1 := hk1.symm
      have : cr2.1 = e2c := hk2
      calc e1c = cr1.1 := hk1.symm
        _ = g.pix p.1 p.2 := hc1.symm
        _ = g.pix q.1 q.2 := hpix
        _ = cr2.1 := hc2
        _ = e2c := hk2
    subst hkeq
    have hleq : e1l = e2l := assoc_unique _ hkeys he1 he2
    rw [← hleq] at hm2
    exact ⟨(e1c, e1l), he1, ⟨cr1.2, hm1, hrp⟩, ⟨cr2.2, hm2, hrq⟩⟩

theorem C2_amended_witness :
    sameGroup (create_rects (find_color_regions grid10)) (0, 0) (5, 5) ↔
      grid10.pix 0 0 = grid10.pix 5 5 :=
  C2_amended_groups_by_color grid10 (0, 0) (5, 5) (by decide) (by decide)

/-- C3: the rectangles of the whole catalog cover every in-bounds coordinate,
are pairwise disjoint (so each coordinate lies in exactly one rectangle), lie
inside the grid, and each covered coordinate's pixel color equals the color of
the group the rectangle belongs to. -/
theorem C3_catalog_exact_cover (g : Grid) :
    (∀ p : Coord, inBounds g p →
      ∃ cr ∈ allRects (create_rects (find_color_regions g)), inRect cr.2 p) ∧
    (allRects (create_rects (find_color_regions g))).Pairwise
      (fun a b => ∀ p : Coord, inRect a.2 p → ¬ inRect b.2 p) ∧
    (∀ cr ∈ allRects (create_rects (find_color_regions g)), ∀ p : Coord,
      inRect cr.2 p → inBounds g p ∧ g.pix p.1 p.2 = cr.1) :=
  catalog_spec g

theorem C3_witness :
    ∃ cr ∈ allRects (create_rects (find_color_regions grid3)), inRect cr.2 (0, 0) :=
  (C3_catalog_exact_cover grid3).1 (0, 0) (by decide)

/-- C4: the rectangles returned by `split_into_rects` cover exactly the input
point set — nothing outside it — and are pairwise disjoint. -/
theorem C4_split_exact_cover (points : List Coord) :
    (∀ p : Coord, inRects (split_into_rects points) p ↔ p ∈ points) ∧
    (split_into_rects points).Pairwise rectDisjoint :=
  split_into_rects_spec points

theorem C4_witness :
    inRects (split_into_rects nineComponent) (1, 1) ↔
      ((1 : Int), (1 : Int)) ∈ nineComponent :=
  (C4_split_exact_cover nineComponent).1 (1, 1)

/-- C5: `find_color_regions` partitions the pixels — every in-bounds
coordinate lies in exactly one component (coverage plus pairwise
disjointness) — and each component is a maximal 4-connected same-color set:
members are in-bounds and share the component's color, any two members are
4-adjacent-reachable from each other through same-color cells (all of which
are members), and any same-colored in-bounds cell adjacent to a member is
itself a member. -/
theorem C5_components_partition (g : Grid) :
    (∀ p : Coord, inBounds g p → ∃ cc ∈ allComps (find_color_regions g), p ∈ cc.2) ∧
    (allComps (find_color_regions g)).Pairwise
      (fun a b => ∀ p : Coord, p ∈ a.2 → p ∉ b.2) ∧
    (∀ cc ∈ allComps (find_color_regions g), ∀ p ∈ cc.2,
      inBounds g p ∧ g.pix p.1 p.2 = cc.1) ∧
    (∀ cc ∈ allComps (find_color_regions g), ∀ p ∈ cc.2, ∀ q ∈ cc.2, Reach g cc.1 p q) ∧
    (∀ cc ∈ allComps (find_color_regions g), ∀ p ∈ cc.2, ∀ q : Coord,
      adjacent p q → inBounds g q → g.pix q.1 q.2 = cc.1 → q ∈ cc.2) := by
  obtain ⟨h1, h2, h3, h4, h5, h6, h7⟩ := find_color_regions_components g
  exact ⟨h1, h2, fun cc hcc p hp => ⟨(h3 cc hcc p hp).1, (h3 cc hcc p hp).2⟩, h4, h5⟩

theorem C5_witness :
    ∃ cc ∈ allComps (find_color_regions grid3), ((0 : Int), (0 : Int)) ∈ cc.2 :=
  (C5_components_partition grid3).1 (0, 0) (by decide)

/-- C6: every outer-loop iteration consumes at least the popped origin, so the
number of emitted rectangles is at most the size of the component's point set
(and of the raw list), and a non-empty input always decomposes into a
non-empty rectangle list with no error condition (the function is total). -/
theorem C6_loop_bounds (points : List Coord) :
    (split_into_rects points).length ≤ points.dedup.length ∧
    (split_into_rects points).length ≤ points.length ∧
    (points ≠ [] → split_into_rects points ≠ []) := by
  refine ⟨splitLoopAux_length_le _ _, ?_, ?_⟩
  · calc (split_into_rects points).length
        ≤ points.dedup.length := splitLoopAux_length_le _ _
      _ ≤ points.length := (List.dedup_sublist points).length_le
  · intro hne
    have hd : points.dedup ≠ [] := fun h0 => hne ((List.dedup_eq_nil points).1 h0)
    unfold split_into_rects splitLoop
    cases hdd : points.dedup with
    | nil => exact absurd hdd hd
    | cons a t =>
        obtain ⟨x0, y0⟩ := a
        simp only [List.length_cons, splitLoopAux]
        exact List.cons_ne_nil _ _

theorem C6_witness : nineComponent ≠ [] ∧ split_into_rects nineComponent ≠ [] :=
  ⟨by decide, (C6_loop_bounds nineComponent).2.2 (by decide)⟩

/-- C7: an image whose dimensions differ from 6144×4096 fails validation in
`load_bmp` (which returns `None`), and `main` then returns before the core
runs, writing no output. -/
theorem C7_wrong_dimensions_abort (img : Grid)
    (hdim : (img.width, img.height) ≠ (6144, 4096)) :
    load_bmp (some img) = none ∧ main (some img) = none := by
  have h1 : load_bmp (some img) = none := by
    simp only [load_bmp]
    rw [if_neg hdim]
  refine ⟨h1, ?_⟩
  unfold main
  rw [h1]

theorem C7_witness :
    ((grid3.width, grid3.height) ≠ ((6144 : Nat), (4096 : Nat))) ∧
      main (some grid3) = none :=
  ⟨by decide, (C7_wrong_dimensions_abort grid3 (by decide)).2⟩

/-- C8: the downward-extension loop's row range is computed once while
`height = 1`, so every rectangle emitted by `split_into_rects` has height at
most 2. -/
theorem C8_height_at_most_two (points : List Coord) (r : Rect)
    (hr : r ∈ split_into_rects points) : rectH r ≤ 2 := by
  rcases splitLoopAux_height points.dedup.length points.dedup r hr with h | h <;> omega

theorem C8_witness :
    (((0 : Int), (0 : Int), (3 : Int), (2 : Int)) ∈ split_into_rects nineComponent) ∧
      rectH ((0 : Int), (0 : Int), (3 : Int), (2 : Int)) ≤ 2 :=
  ⟨by decide, C8_height_at_most_two nineComponent _ (by decide)⟩

/-- C9: `load_bmp` never propagates an exception: every exception raised during
opening or validation (including its own dimension `ValueError`) is caught, so
it returns either an image of size 6144×4096 or `None`. -/
theorem C9_load_bmp_never_throws (r : Option Grid) :
    load_bmp r = none ∨
      ∃ img : Grid, load_bmp r = some img ∧ img.width = 6144 ∧ img.height = 4096 := by
  match r with
  | none => exact Or.inl rfl
  | some img =>
      by_cases h : (img.width, img.height) = ((6144 : Nat), (4096 : Nat))
      · have h2 : img.width = 6144 ∧ img.height = 4096 := by
          rw [Prod.mk.injEq] at h
          exact h
        right
        refine ⟨img, ?_, h2.1, h2.2⟩
        simp only [load_bmp]
        rw [if_pos h]
      · left
        simp only [load_bmp]
        rw [if_neg h]

/-- C10: line 78 copies the argument into a fresh set before any removal, so
the caller's point collection is unchanged by the decomposition: running the
loop with the caller's collection tracked explicitly returns it intact,
together with the same rectangles `split_into_rects` produces. -/
theorem C10_argument_not_mutated (points : List Coord) :
    (split_into_rects_frame points).2 = points ∧
    (split_into_rects_frame points).1 = split_into_rects points := by
  unfold split_into_rects_frame split_into_rects splitLoop
  rw [splitLoopFrame_eq]
  exact ⟨rfl, rfl⟩

end RegionScript

